import Mathlib

/-!
Terraform module generator (`main.go`): a shallow embedding.

Go strings are modelled as lists of runes (`List Char`); the program only ever
splits, joins, trims and maps them rune by rune, so the model assumes the text
is valid UTF-8.  The operating system (directories and files) and the
chat-completion endpoint are outside the repository: the first is an explicit
state `FS`, the second an oracle `Endpoint` handing one `Reply` to each call.
-/

namespace TerraformModule

/-- A Go `string`, as its sequence of runes. -/
abbrev Str := List Char

/-! ## The `strings` package, as far as `main.go` uses it -/

/-- `strings.Split(s, sep)` for a one-rune separator: the pieces of `s` between
the occurrences of `sep`; always `Count(s, sep) + 1` pieces, so `[""]` for `""`. -/
def Split : Str → Char → List Str
  | [], _ => [[]]
  | c :: cs, sep =>
    if c = sep then [] :: Split cs sep
    else
      match Split cs sep with
      | [] => [[c]]
      | piece :: pieces => (c :: piece) :: pieces

/-- `strings.Join(elems, sep)`. -/
def Join : List Str → Str → Str
  | [], _ => []
  | [a], _ => a
  | a :: b :: rest, sep => a ++ sep ++ Join (b :: rest) sep

/-- `strings.HasPrefix(s, p)`. -/
def HasPrefix : Str → Str → Bool
  | _, [] => true
  | [], _ :: _ => false
  | c :: cs, p :: ps => decide (c = p) && HasPrefix cs ps

/-- `strings.ReplaceAll(s, old, new)` where `old` and `new` are one rune each. -/
def ReplaceAll (s : Str) (old new : Char) : Str :=
  s.map fun c => if c = old then new else c

/-- `strings.ToLower(s)`: every rune is sent through `unicode.ToLower`, which
is the standard library's table and is taken as the parameter `lower`. -/
def ToLower (lower : Char → Char) (s : Str) : Str :=
  s.map lower

/-- `unicode.IsSpace`: the Latin-1 spaces `\t \n \v \f \r`, space, U+0085,
U+00A0, and beyond Latin-1 the runes with Unicode's White_Space property. -/
def isSpace (c : Char) : Bool :=
  let n := c.toNat
  (9 ≤ n && n ≤ 13) || n = 0x20 || n = 0x85 || n = 0xA0 || n = 0x1680 ||
  (0x2000 ≤ n && n ≤ 0x200A) || n = 0x2028 || n = 0x2029 || n = 0x202F ||
  n = 0x205F || n = 0x3000

/-- `strings.TrimSpace(s)`: `s` without its leading and trailing white space. -/
def TrimSpace (s : Str) : Str :=
  ((s.dropWhile isSpace).reverse.dropWhile isSpace).reverse

/-- The lower-casing of the ASCII range, which is what `unicode.ToLower` does
on runes below U+0080 (and the fast path of `strings.ToLower`). -/
def asciiLower (c : Char) : Char :=
  if 65 ≤ c.toNat ∧ c.toNat ≤ 90 then Char.ofNat (c.toNat + 32) else c

/-! ## `extractCodeBlock` -/

/-- The fence marker: three backticks. -/
def fence : Str := "\x60\x60\x60".toList

/-- The `for _, line := range lines` loop of `extractCodeBlock`, as a function
of the two loop variables `insideCodeBlock` and `codeLines` and of the lines
still to visit; the result is `codeLines` when the loop is left. -/
def extractLoop : Bool → List Str → List Str → List Str
  | _, codeLines, [] => codeLines
  | insideCodeBlock, codeLines, line :: lines =>
    if HasPrefix line fence then
      if insideCodeBlock then codeLines            -- break
      else extractLoop true codeLines lines        -- continue
    else if insideCodeBlock then extractLoop insideCodeBlock (codeLines ++ [line]) lines
    else extractLoop insideCodeBlock codeLines lines

/-- `extractCodeBlock(content)`. -/
def extractCodeBlock (content : Str) : Str :=
  Join (extractLoop false [] (Split content '\n')) "\n".toList

/-! ## Module names and the root files -/

/-- The `moduleName` of `generateRootTerraformFiles` (line 94):
`fmt.Sprintf("%s_module", strings.ToLower(strings.ReplaceAll(resource, " ", "_")))`. -/
def rootModuleName (lower : Char → Char) (resource : Str) : Str :=
  ToLower lower (ReplaceAll resource ' ' '_') ++ "_module".toList

/-- The `moduleName` of `generateResourceModule` (line 106), written there a second time. -/
def resourceModuleName (lower : Char → Char) (resource : Str) : Str :=
  ToLower lower (ReplaceAll resource ' ' '_') ++ "_module".toList

/-- The Module Name in the specification's words: lower-case the resource
name, replace its spaces with underscores, then append the fixed suffix. -/
def specModuleName (lower : Char → Char) (resource : Str) : Str :=
  ReplaceAll (ToLower lower resource) ' ' '_' ++ "_module".toList

/-- The `modulePath` of `generateResourceModule`: `fmt.Sprintf("infrastructure/%s", moduleName)`. -/
def modulePathOf (moduleName : Str) : Str :=
  "infrastructure/".toList ++ moduleName

/-- The `providerContent` raw string. -/
def providerContent : Str :=
  "provider \"azurerm\" \x7b\n  features \x7b\x7d\n\x7d".toList

/-- The `variablesContent` raw string. -/
def variablesContent : Str :=
  "variable \"location\" \x7b\n  description = \"Azure region\"\n  type        = string\n\x7d".toList

/-- The three lines of one module block, without the line ends. -/
def moduleBlockLines (moduleName : Str) : List Str :=
  ["module \"".toList ++ moduleName ++ "\" \x7b".toList,
   "  source = \"./".toList ++ moduleName ++ "\"".toList,
   "\x7d".toList]

/-- The text `fmt.Sprintf` makes of the module template (lines 95-99) for one
module name: the block, its line end, and one empty line. -/
def moduleBlockText (moduleName : Str) : Str :=
  "module \"".toList ++ moduleName ++ "\" \x7b\n  source = \"./".toList ++ moduleName
    ++ "\"\n\x7d\n\n".toList

/-- The `mainContent` loop of `generateRootTerraformFiles`: start from `""` and
append one block per resource. -/
def mainContent (lower : Char → Char) (resources : List Str) : Str :=
  resources.foldl (fun acc resource => acc ++ moduleBlockText (rootModuleName lower resource)) []

/-! ## The file system -/

/-- A path, as the program spells it; two spellings are two paths. -/
abbrev Path := Str

/-- The state of the file system: the directories that exist and the regular
files with their contents (the first entry for a path is the current one). -/
structure FS where
  dirs : List Path
  files : List (Path × Str)
deriving DecidableEq

/-- The content of the regular file at `p`, if there is one. -/
def FS.read (fs : FS) (p : Path) : Option Str :=
  fs.files.lookup p

/-- The directories above `p`: its prefixes that end right before a `/`. -/
def ancestorsFrom : Str → Str → List Path
  | _, [] => []
  | seen, c :: cs =>
    if c = '/' then
      if seen = [] then ancestorsFrom (seen ++ [c]) cs
      else seen :: ancestorsFrom (seen ++ [c]) cs
    else ancestorsFrom (seen ++ [c]) cs

/-- The directory that holds `p`, when `p` has one spelled out. -/
def parentOf (p : Path) : Option Path :=
  (ancestorsFrom [] p).getLast?

/-- The directory-by-directory walk of `os.MkdirAll`: each path in turn is
created unless it exists; the walk stops with an error at a regular file. -/
def mkdirWalk : FS → List Path → FS × Bool
  | fs, [] => (fs, true)
  | fs, q :: qs =>
    if (fs.read q).isSome then (fs, false)
    else if q ∈ fs.dirs then mkdirWalk fs qs
    else mkdirWalk { fs with dirs := fs.dirs ++ [q] } qs

/-- `os.MkdirAll(p, os.ModePerm)`: the new state and whether `err == nil`. -/
def mkdirAll (fs : FS) (p : Path) : FS × Bool :=
  mkdirWalk fs (ancestorsFrom [] p ++ [p])

/-- `ioutil.WriteFile(p, content, 0644)` with its error dropped, as every call
in `main.go` does: the file is created or replaced when `p` is not a directory
and the directory holding it exists; otherwise nothing happens. -/
def writeFile (fs : FS) (p : Path) (content : Str) : FS :=
  if p ∈ fs.dirs then fs
  else
    match parentOf p with
    | some d => if d ∈ fs.dirs then { fs with files := (p, content) :: fs.files } else fs
    | none => { fs with files := (p, content) :: fs.files }

/-! ## The completion endpoint and the run -/

/-- What `json.Decode` and the three type assertions make of a response body. -/
inductive Body
  | undecodable
  | wrongShape
  | content (text : Str)
deriving DecidableEq

/-- What `client.Do` returns. -/
inductive Reply
  | transportError
  | response (statusCode : Nat) (raw : Str) (body : Body)
deriving DecidableEq

/-- The ways the process ends early: one per `log.Fatalf`, and the panic of a
failed type assertion. -/
inductive Fatal
  | openConfig
  | parseConfig
  | missingKey
  | mkdirInfrastructure
  | mkdirModule (resource : Str)
  | sendRequest
  | apiError (raw : Str)
  | decodeResponse
  | assertionPanic
deriving DecidableEq

/-- The end of a run that did not finish: why, and the file system it leaves. -/
structure Exit where
  fatal : Fatal
  fs : FS
deriving DecidableEq

/-- The endpoint: the reply to the `k`-th request, given the key and the prompt. -/
abbrev Endpoint := Nat → Str → Str → Reply

/-- What opening and decoding `config.json` gives. -/
inductive ConfigFile
  | missing
  | unparsable
  | parsed (openAIAPIKey : Str)

/-- `loadAPIKeyFromConfig`, returning the key it stores in `openAIAPIKey`. -/
def loadAPIKeyFromConfig : ConfigFile → Except Fatal Str
  | .missing => .error .openConfig
  | .unparsable => .error .parseConfig
  | .parsed key =>
    if TrimSpace key = [] then .error .missingKey else .ok (TrimSpace key)

/-- The `prompt` of `getTerraformCode`. -/
def promptOf (resource : Str) : Str :=
  "Generate Terraform code to create an Azure ".toList ++ resource
    ++ ". Use best practices and include all required properties.".toList

/-- `getTerraformCode(resource)`, as the `k`-th request of the run. -/
def getTerraformCode (endpoint : Endpoint) (key : Str) (k : Nat) (resource : Str) :
    Except Fatal Str :=
  match endpoint k key (promptOf resource) with
  | .transportError => .error .sendRequest
  | .response statusCode raw body =>
    if statusCode ≠ 200 then .error (.apiError raw)
    else
      match body with
      | .undecodable => .error .decodeResponse
      | .wrongShape => .error .assertionPanic
      | .content text => .ok (extractCodeBlock text)

/-- `generateResourceModule(resource)`, as the `k`-th module of the run. -/
def generateResourceModule (lower : Char → Char) (endpoint : Endpoint) (key : Str) (k : Nat)
    (fs : FS) (resource : Str) : Except Exit FS :=
  let moduleName := resourceModuleName lower resource
  let modulePath := modulePathOf moduleName
  match mkdirAll fs modulePath with
  | (fs1, false) => .error ⟨.mkdirModule resource, fs1⟩
  | (fs1, true) =>
    match getTerraformCode endpoint key k resource with
    | .error f => .error ⟨f, fs1⟩
    | .ok terraformCode =>
      let fs2 := writeFile fs1 (modulePath ++ "/main.tf".toList) terraformCode
      let fs3 := writeFile fs2 (modulePath ++ "/variables.tf".toList) []
      .ok (writeFile fs3 (modulePath ++ "/output.tf".toList) [])

/-- The names of the three files `generateResourceModule` writes in a module directory. -/
def moduleFileNames : List Str :=
  ["main.tf".toList, "variables.tf".toList, "output.tf".toList]

/-- `generateRootTerraformFiles(resources)`. -/
def generateRootTerraformFiles (lower : Char → Char) (fs : FS) (resources : List Str) : FS :=
  let fs1 := writeFile fs "infrastructure/provider.tf".toList providerContent
  let fs2 := writeFile fs1 "infrastructure/variables.tf".toList variablesContent
  writeFile fs2 "infrastructure/main.tf".toList (mainContent lower resources)

/-- `reader.ReadString(delim)` on the whole of standard input, error dropped:
the text up to and including the first `delim`, or all of it. -/
def ReadString : Str → Char → Str
  | [], _ => []
  | c :: cs, delim => if c = delim then [c] else c :: ReadString cs delim

/-- The loop `for i, res := range resources { resources[i] = strings.TrimSpace(res) }`. -/
def trimLoop (resources : List Str) : List Str :=
  (List.range resources.length).foldl
    (fun rs i => rs.set i (TrimSpace (rs.getD i []))) resources

/-- Lines 32-37 of `main`: the resource list made of the input line. -/
def resourcesOf (resourcesInput : Str) : List Str :=
  trimLoop (Split (TrimSpace resourcesInput) ',')

/-- The loop `for _, resource := range resources { generateResourceModule(resource) }`,
from its `k`-th turn on. -/
def modulesLoop (lower : Char → Char) (endpoint : Endpoint) (key : Str) :
    Nat → FS → List Str → Except Exit FS
  | _, fs, [] => .ok fs
  | k, fs, resource :: rest =>
    match generateResourceModule lower endpoint key k fs resource with
    | .error e => .error e
    | .ok fs1 => modulesLoop lower endpoint key (k + 1) fs1 rest

/-- The run of `main` on a file system, a `config.json` and a standard input. -/
def main (lower : Char → Char) (endpoint : Endpoint) (cfg : ConfigFile) (fs : FS)
    (stdin : Str) : Except Exit FS :=
  match loadAPIKeyFromConfig cfg with
  | .error f => .error ⟨f, fs⟩
  | .ok key =>
    let resources := resourcesOf (ReadString stdin '\n')
    match mkdirAll fs "infrastructure".toList with
    | (fs1, false) => .error ⟨.mkdirInfrastructure, fs1⟩
    | (fs1, true) =>
      modulesLoop lower endpoint key 0 (generateRootTerraformFiles lower fs1 resources) resources

/-! ## Lemmas on splitting and joining -/

theorem Split_ne_nil (s : Str) (sep : Char) : Split s sep ≠ [] := by
  induction s with
  | nil => simp [Split]
  | cons c cs ih =>
    unfold Split
    split
    · simp
    · split
      · simp
      · simp

theorem Split_cons_of_ne (c : Char) (cs : Str) (sep : Char) (h : c ≠ sep)
    (p : Str) (ps : List Str) (hs : Split cs sep = p :: ps) :
    Split (c :: cs) sep = (c :: p) :: ps := by
  conv_lhs => unfold Split
  rw [if_neg h, hs]

/-- Splitting a line that holds no separator, followed by the separator and more text. -/
theorem Split_append_sep (l : Str) (sep : Char) (rest : Str) (hl : sep ∉ l) :
    Split (l ++ sep :: rest) sep = l :: Split rest sep := by
  induction l with
  | nil => simp [Split]
  | cons c cs ih =>
    have hc : c ≠ sep := fun h => hl (by simp [h])
    have hcs : sep ∉ cs := fun h => hl (by simp [h])
    simp only [List.cons_append]
    exact Split_cons_of_ne c _ sep hc cs _ (ih hcs)

theorem Split_of_not_mem (l : Str) (sep : Char) (hl : sep ∉ l) : Split l sep = [l] := by
  induction l with
  | nil => simp [Split]
  | cons c cs ih =>
    have hc : c ≠ sep := fun h => hl (by simp [h])
    have hcs : sep ∉ cs := fun h => hl (by simp [h])
    exact Split_cons_of_ne c cs sep hc cs [] (ih hcs)

/-- `Split` undoes `Join` on a non-empty list of separator-free lines. -/
theorem Split_Join (lines : List Str) (sep : Char) (hne : lines ≠ [])
    (h : ∀ l ∈ lines, sep ∉ l) : Split (Join lines [sep]) sep = lines := by
  induction lines with
  | nil => exact absurd rfl hne
  | cons a rest ih =>
    cases rest with
    | nil => simpa [Join] using Split_of_not_mem a sep (h a (by simp))
    | cons b rest2 =>
      have ha : sep ∉ a := h a (by simp)
      have hrest : ∀ l ∈ b :: rest2, sep ∉ l := fun l hl => h l (by simp [hl])
      have := ih (by simp) hrest
      simp only [Join, List.append_assoc, List.singleton_append]
      rw [Split_append_sep a sep _ ha, this]

/-! ## Lemmas on the extractor loop -/

/-- Outside a block, lines that are not fences are skipped. -/
theorem extractLoop_outside_skip (pre rest acc : List Str)
    (hpre : ∀ l ∈ pre, HasPrefix l fence = false) :
    extractLoop false acc (pre ++ rest) = extractLoop false acc rest := by
  induction pre with
  | nil => rfl
  | cons l ls ih =>
    have hl : HasPrefix l fence = false := hpre l (by simp)
    have hls : ∀ x ∈ ls, HasPrefix x fence = false := fun x hx => hpre x (by simp [hx])
    simp [extractLoop, hl, ih hls]

/-- Inside a block, lines that are not fences are collected in order. -/
theorem extractLoop_inside_collect (body rest acc : List Str)
    (hbody : ∀ l ∈ body, HasPrefix l fence = false) :
    extractLoop true acc (body ++ rest) = extractLoop true (acc ++ body) rest := by
  induction body generalizing acc with
  | nil => simp
  | cons l ls ih =>
    have hl : HasPrefix l fence = false := hbody l (by simp)
    have hls : ∀ x ∈ ls, HasPrefix x fence = false := fun x hx => hbody x (by simp [hx])
    simp [extractLoop, hl, ih _ hls]

theorem extractLoop_open (line : Str) (rest acc : List Str) (h : HasPrefix line fence = true) :
    extractLoop false acc (line :: rest) = extractLoop true acc rest := by
  simp [extractLoop, h]

theorem extractLoop_close (line : Str) (rest acc : List Str) (h : HasPrefix line fence = true) :
    extractLoop true acc (line :: rest) = acc := by
  simp [extractLoop, h]

/-! ## The extractor: claims C1, C2, C3 -/

/-- C1: when the lines of the text are some lines that do not start with the
fence marker, then a line that starts with it (whatever follows the marker),
then body lines none of which starts with it, then a line that starts with it,
then any lines at all, `extractCodeBlock` returns the body lines joined with
a newline, in order, and nothing else. -/
theorem extractCodeBlock_first_block (content : Str) (pre body rest : List Str)
    (opening closing : Str)
    (hlines : Split content '\n' = pre ++ [opening] ++ body ++ [closing] ++ rest)
    (hpre : ∀ l ∈ pre, HasPrefix l fence = false)
    (hopen : HasPrefix opening fence = true)
    (hbody : ∀ l ∈ body, HasPrefix l fence = false)
    (hclose : HasPrefix closing fence = true) :
    extractCodeBlock content = Join body "\n".toList := by
  unfold extractCodeBlock
  rw [hlines]
  simp only [List.append_assoc, List.singleton_append, List.cons_append, List.nil_append]
  rw [extractLoop_outside_skip pre _ [] hpre, extractLoop_open opening _ [] hopen,
    extractLoop_inside_collect body _ [] hbody, extractLoop_close closing rest _ hclose]
  simp

theorem extractCodeBlock_first_block_witness :
    extractCodeBlock
        "intro\n\x60\x60\x60hcl\na\nb\n\x60\x60\x60\nbye\n\x60\x60\x60\nx\n\x60\x60\x60".toList
      = Join ["a".toList, "b".toList] "\n".toList :=
  extractCodeBlock_first_block _ ["intro".toList] ["a".toList, "b".toList]
    ["bye".toList, "\x60\x60\x60".toList, "x".toList, "\x60\x60\x60".toList]
    "\x60\x60\x60hcl".toList "\x60\x60\x60".toList
    (by decide) (by decide) (by decide) (by decide) (by decide)

/-- C2 as stated fails: in the text of lines fence, a, fence, b, fence, c the
last fence line has no fence line after it, yet the extractor returns the first
block `a`, not the line `c` that follows that fence. -/
theorem extractCodeBlock_last_fence_counterexample :
    ¬ (∀ (content : Str) (before after : List Str) (line : Str),
        Split content '\n' = before ++ [line] ++ after →
        HasPrefix line fence = true →
        (∀ l ∈ after, HasPrefix l fence = false) →
        extractCodeBlock content = Join after "\n".toList) := by
  intro h
  have := h "\x60\x60\x60\na\n\x60\x60\x60\nb\n\x60\x60\x60\nc".toList
    ["\x60\x60\x60".toList, "a".toList, "\x60\x60\x60".toList, "b".toList] ["c".toList]
    "\x60\x60\x60".toList (by decide) (by decide) (by decide)
  revert this
  decide

/-- C2, amended: when the first line of the text that starts with the fence
marker has no later line that starts with it, `extractCodeBlock` returns every
line after that line, in order, joined with a newline. -/
theorem extractCodeBlock_unclosed (content : Str) (pre after : List Str) (opening : Str)
    (hlines : Split content '\n' = pre ++ [opening] ++ after)
    (hpre : ∀ l ∈ pre, HasPrefix l fence = false)
    (hopen : HasPrefix opening fence = true)
    (hafter : ∀ l ∈ after, HasPrefix l fence = false) :
    extractCodeBlock content = Join after "\n".toList := by
  unfold extractCodeBlock
  rw [hlines]
  simp only [List.append_assoc, List.singleton_append, List.cons_append, List.nil_append]
  rw [extractLoop_outside_skip pre _ [] hpre, extractLoop_open opening _ [] hopen]
  have := extractLoop_inside_collect after [] [] hafter
  simp only [List.append_nil, List.nil_append] at this
  rw [this]
  rfl

theorem extractCodeBlock_unclosed_witness :
    extractCodeBlock "Here:\n\x60\x60\x60terraform\nresource x\n\nend".toList
      = Join ["resource x".toList, [], "end".toList] "\n".toList :=
  extractCodeBlock_unclosed _ ["Here:".toList] ["resource x".toList, [], "end".toList]
    "\x60\x60\x60terraform".toList (by decide) (by decide) (by decide) (by decide)

/-- C3: when no line of the text starts with the fence marker,
`extractCodeBlock` returns the empty string. -/
theorem extractCodeBlock_no_fence (content : Str)
    (h : ∀ l ∈ Split content '\n', HasPrefix l fence = false) :
    extractCodeBlock content = [] := by
  unfold extractCodeBlock
  have := extractLoop_outside_skip (Split content '\n') [] [] h
  simp only [List.append_nil] at this
  rw [this]
  rfl

theorem extractCodeBlock_no_fence_witness :
    extractCodeBlock [] = [] ∧
    extractCodeBlock "use \x60\x60\x60 to fence\ncode".toList = [] :=
  ⟨extractCodeBlock_no_fence [] (by decide),
   extractCodeBlock_no_fence "use \x60\x60\x60 to fence\ncode".toList (by decide)⟩

/-! ## Module names: claims C4 and C8 -/

theorem toNat_ofNat_small (n : Nat) (h : n < 55296) : (Char.ofNat n).toNat = n := by
  unfold Char.ofNat
  have hv : n.isValidChar := Or.inl h
  simp only [hv, dite_true]
  simp [Char.ofNatAux, Char.toNat, UInt32.toNat]

/-- The ASCII lower-casing only ever produces a rune below `A` from itself. -/
theorem asciiLower_eq_small (c d : Char) (hd : d.toNat < 65) (h : asciiLower c = d) : c = d := by
  unfold asciiLower at h
  split at h
  · rename_i hc
    have := congrArg Char.toNat h
    rw [toNat_ofNat_small _ (by omega)] at this
    omega
  · exact h

theorem asciiLower_space (c : Char) : asciiLower c = ' ' → c = ' ' :=
  asciiLower_eq_small c ' ' (by decide)

theorem asciiLower_slash (c : Char) : asciiLower c = '/' ↔ c = '/' :=
  ⟨asciiLower_eq_small c '/' (by decide), fun h => by subst h; decide⟩

theorem ToLower_ascii (lower : Char → Char)
    (hascii : ∀ c : Char, c.toNat < 128 → lower c = asciiLower c) (s : Str)
    (hs : ∀ c ∈ s, c.toNat < 128) : ToLower lower s = ToLower asciiLower s := by
  unfold ToLower
  exact List.map_congr_left fun c hc => hascii c (hs c hc)

/-- Replacing spaces and lower-casing commute, rune by rune. -/
theorem ToLower_ReplaceAll_comm (lower : Char → Char)
    (hunder : lower '_' = '_') (hspace : ∀ c, lower c = ' ' ↔ c = ' ') (s : Str) :
    ToLower lower (ReplaceAll s ' ' '_') = ReplaceAll (ToLower lower s) ' ' '_' := by
  unfold ToLower ReplaceAll
  simp only [List.map_map]
  apply List.map_congr_left
  intro c _
  simp only [Function.comp]
  by_cases hc : c = ' '
  · subst hc
    simp [hunder, (hspace ' ').2 rfl]
  · have : lower c ≠ ' ' := fun h => hc ((hspace c).1 h)
    simp [hc, this]

/-- C4: for every resource name, the Module Name computed by the Root Writer
and the one computed by the Module Writer both equal the specification's
lower-case, then replace spaces, then append `_module`; the lower-casing is
any rune map that agrees with ASCII lower-casing below U+0080 and sends
nothing but the space to the space. For `Virtual Machine` the name is
`virtual_machine_module`. -/
theorem moduleName_eq_spec (lower : Char → Char)
    (hascii : ∀ c : Char, c.toNat < 128 → lower c = asciiLower c)
    (hspace : ∀ c, lower c = ' ' → c = ' ') (resource : Str) :
    rootModuleName lower resource = specModuleName lower resource ∧
    resourceModuleName lower resource = specModuleName lower resource ∧
    rootModuleName lower "Virtual Machine".toList = "virtual_machine_module".toList ∧
    resourceModuleName lower "Virtual Machine".toList = "virtual_machine_module".toList ∧
    specModuleName lower "Virtual Machine".toList = "virtual_machine_module".toList := by
  have hunder : lower '_' = '_' := by rw [hascii '_' (by decide)]; decide
  have hsp : ∀ c, lower c = ' ' ↔ c = ' ' := fun c =>
    ⟨hspace c, fun h => by subst h; rw [hascii ' ' (by decide)]; decide⟩
  have hcomm := ToLower_ReplaceAll_comm lower hunder hsp
  have hvm : ToLower lower (ReplaceAll "Virtual Machine".toList ' ' '_')
      = "virtual_machine".toList := by
    rw [ToLower_ascii lower hascii _ (by decide)]
    decide
  refine ⟨?_, ?_, ?_, ?_, ?_⟩
  · simp [rootModuleName, specModuleName, hcomm]
  · simp [resourceModuleName, specModuleName, hcomm]
  · unfold rootModuleName; rw [hvm]; decide
  · unfold resourceModuleName; rw [hvm]; decide
  · unfold specModuleName; rw [← hcomm, hvm]; decide

theorem moduleName_eq_spec_witness :
    rootModuleName asciiLower "Key Vault".toList = specModuleName asciiLower "Key Vault".toList ∧
    resourceModuleName asciiLower "Key Vault".toList
      = specModuleName asciiLower "Key Vault".toList ∧
    rootModuleName asciiLower "Virtual Machine".toList = "virtual_machine_module".toList ∧
    resourceModuleName asciiLower "Virtual Machine".toList = "virtual_machine_module".toList ∧
    specModuleName asciiLower "Virtual Machine".toList = "virtual_machine_module".toList :=
  moduleName_eq_spec asciiLower (fun _ _ => rfl) asciiLower_space "Key Vault".toList

theorem mem_ReplaceAll_slash (s : Str) : '/' ∈ ReplaceAll s ' ' '_' ↔ '/' ∈ s := by
  unfold ReplaceAll
  simp only [List.mem_map]
  constructor
  · rintro ⟨c, hc, h⟩
    by_cases hsp : c = ' '
    · rw [if_pos hsp] at h; exact absurd h (by decide)
    · rw [if_neg hsp] at h; exact h ▸ hc
  · intro h
    exact ⟨'/', h, by decide⟩

theorem mem_ToLower_slash (lower : Char → Char) (hslash : ∀ c, lower c = '/' ↔ c = '/')
    (s : Str) : '/' ∈ ToLower lower s ↔ '/' ∈ s := by
  unfold ToLower
  simp only [List.mem_map]
  constructor
  · rintro ⟨c, hc, h⟩
    exact ((hslash c).1 h) ▸ hc
  · intro h
    exact ⟨'/', h, (hslash '/').2 rfl⟩

/-- C8 as stated fails: the input line `a/b` normalizes to the resource name
`a/b`, whose Module Name `a/b_module` contains the path separator. -/
theorem moduleName_separator_counterexample :
    ¬ (∀ (line : Str) (resource : Str), resource ∈ resourcesOf line →
        resourceModuleName asciiLower resource ≠ [] ∧
        '/' ∉ resourceModuleName asciiLower resource) := by
  intro h
  have := (h "a/b\n".toList "a/b".toList (by decide)).2
  revert this
  decide

/-- C8, amended: for every resource name produced by the normalization, the
Module Name is never the empty string, and it contains the path separator
exactly when the resource name does (the lower-casing being any rune map that
sends nothing but `/` to `/`). -/
theorem moduleName_segment (lower : Char → Char) (hslash : ∀ c, lower c = '/' ↔ c = '/')
    (line : Str) (resource : Str) (_hres : resource ∈ resourcesOf line) :
    resourceModuleName lower resource ≠ [] ∧
    ('/' ∈ resourceModuleName lower resource ↔ '/' ∈ resource) := by
  unfold resourceModuleName
  constructor
  · intro h
    have := congrArg List.length h
    simp at this
  · rw [List.mem_append, mem_ToLower_slash lower hslash, mem_ReplaceAll_slash]
    constructor
    · rintro (h | h)
      · exact h
      · exact absurd h (by decide)
    · exact Or.inl

theorem moduleName_segment_witness :
    resourceModuleName asciiLower "Storage Account".toList ≠ [] ∧
    ('/' ∈ resourceModuleName asciiLower "Storage Account".toList
      ↔ '/' ∈ "Storage Account".toList) :=
  moduleName_segment asciiLower asciiLower_slash " VM, Storage Account \n".toList
    "Storage Account".toList (by decide)

/-! ## The resource list: claim C7 -/

/-- The in-place trimming loop, `k` turns in: the first `k` elements are trimmed. -/
theorem trimFold_spec (rs : List Str) (k : Nat) (hk : k ≤ rs.length) :
    ((List.range k).foldl (fun rs i => rs.set i (TrimSpace (rs.getD i []))) rs).length
      = rs.length ∧
    ∀ j, ((List.range k).foldl (fun rs i => rs.set i (TrimSpace (rs.getD i []))) rs)[j]?
      = if j < k then rs[j]?.map TrimSpace else rs[j]? := by
  induction k with
  | zero => simp
  | succ k ih =>
    obtain ⟨hlen, hget⟩ := ih (by omega)
    rw [List.range_succ, List.foldl_append]
    simp only [List.foldl_cons, List.foldl_nil]
    refine ⟨by rw [List.length_set]; exact hlen, fun j => ?_⟩
    rw [List.getElem?_set, hlen, List.getD_eq_getElem?_getD, hget k]
    by_cases hjk : k = j
    · subst hjk
      have h1 : k < rs.length := by omega
      simp [h1]
    · rw [if_neg hjk, hget j]
      by_cases h2 : j < k
      · simp [h2, Nat.lt_succ_of_lt h2]
      · have : ¬ j < k + 1 := by omega
        simp [h2, this]

theorem trimLoop_eq_map (rs : List Str) : trimLoop rs = rs.map TrimSpace := by
  unfold trimLoop
  apply List.ext_getElem?
  intro j
  rw [(trimFold_spec rs rs.length le_rfl).2 j]
  by_cases h : j < rs.length
  · simp [h]
  · simp [h, List.getElem?_eq_none (not_lt.mp h)]

theorem Split_length (s : Str) (sep : Char) : (Split s sep).length = s.count sep + 1 := by
  induction s with
  | nil => rfl
  | cons c cs ih =>
    by_cases hc : c = sep
    · subst hc
      simp [Split, ih]
    · obtain ⟨p, ps, hs⟩ := List.exists_cons_of_ne_nil (Split_ne_nil cs sep)
      rw [Split_cons_of_ne c cs sep hc p ps hs, List.count_cons_of_ne (Ne.symm hc), ← ih, hs]
      rfl

theorem count_dropWhile_of (p : Char → Bool) (a : Char) (ha : p a = false) (l : Str) :
    (l.dropWhile p).count a = l.count a := by
  induction l with
  | nil => rfl
  | cons x xs ih =>
    by_cases hx : p x = true
    · have hxa : x ≠ a := fun h => by rw [h, ha] at hx; cases hx
      rw [List.dropWhile_cons_of_pos hx, ih, List.count_cons_of_ne hxa.symm]
    · rw [List.dropWhile_cons_of_neg hx]

theorem count_TrimSpace (a : Char) (ha : isSpace a = false) (s : Str) :
    (TrimSpace s).count a = s.count a := by
  unfold TrimSpace
  rw [List.count_reverse, count_dropWhile_of isSpace a ha, List.count_reverse,
    count_dropWhile_of isSpace a ha]

/-- C7: for every input line, the resource list is the list of the fields
between the commas of the trimmed line, each field trimmed, in order and
otherwise untouched; it has one element more than the line has commas, and its
`i`-th element is the trimmed `i`-th field. The field ` Storage Account `
becomes `Storage Account`, whose Module Name is `storage_account_module`. -/
theorem resourcesOf_fields (lower : Char → Char)
    (hascii : ∀ c : Char, c.toNat < 128 → lower c = asciiLower c) (line : Str) :
    resourcesOf line = (Split (TrimSpace line) ',').map TrimSpace ∧
    (resourcesOf line).length = line.count ',' + 1 ∧
    (∀ i : Nat, (resourcesOf line)[i]? = (Split (TrimSpace line) ',')[i]?.map TrimSpace) ∧
    TrimSpace " Storage Account ".toList = "Storage Account".toList ∧
    resourcesOf "VM, Storage Account ,VM\n".toList
      = ["VM".toList, "Storage Account".toList, "VM".toList] ∧
    resourceModuleName lower (TrimSpace " Storage Account ".toList)
      = "storage_account_module".toList := by
  have h1 : resourcesOf line = (Split (TrimSpace line) ',').map TrimSpace := by
    unfold resourcesOf
    exact trimLoop_eq_map _
  refine ⟨h1, ?_, ?_, by decide, by decide, ?_⟩
  · rw [h1, List.length_map, Split_length, count_TrimSpace ',' (by decide)]
  · intro i
    rw [h1, List.getElem?_map]
  · have : TrimSpace " Storage Account ".toList = "Storage Account".toList := by decide
    rw [this]
    unfold resourceModuleName
    rw [ToLower_ascii lower hascii _ (by decide)]
    decide

theorem resourcesOf_fields_witness :
    resourcesOf "Key Vault,  SQL Database\n".toList
      = (Split (TrimSpace "Key Vault,  SQL Database\n".toList) ',').map TrimSpace ∧
    (resourcesOf "Key Vault,  SQL Database\n".toList).length
      = ("Key Vault,  SQL Database\n".toList).count ',' + 1 ∧
    resourceModuleName asciiLower (TrimSpace " Storage Account ".toList)
      = "storage_account_module".toList :=
  have h := resourcesOf_fields asciiLower (fun _ _ => rfl) "Key Vault,  SQL Database\n".toList
  ⟨h.1, h.2.1, h.2.2.2.2.2⟩

/-! ## The root aggregator: claim C5 -/

theorem Join_cons_of_ne_nil (a : Str) (rest : List Str) (sep : Str) (h : rest ≠ []) :
    Join (a :: rest) sep = a ++ sep ++ Join rest sep := by
  cases rest with
  | nil => exact absurd rfl h
  | cons b bs => rfl

theorem foldl_append_eq_flatten {α : Type} (f : α → Str) (rs : List α) (init : Str) :
    rs.foldl (fun acc r => acc ++ f r) init = init ++ (rs.map f).flatten := by
  induction rs generalizing init with
  | nil => simp
  | cons r rest ih => simp [ih]

theorem moduleBlockText_eq (m : Str) :
    moduleBlockText m = Join (moduleBlockLines m) "\n".toList ++ "\n\n".toList := by
  simp [moduleBlockText, moduleBlockLines, Join]

theorem mainContent_eq_flatten (lower : Char → Char) (rs : List Str) :
    mainContent lower rs
      = (rs.map fun r => moduleBlockText (rootModuleName lower r)).flatten := by
  unfold mainContent
  rw [foldl_append_eq_flatten (fun r => moduleBlockText (rootModuleName lower r))]
  rfl

/-- Blocks each followed by an empty line are blocks joined by an empty line,
with one more empty line at the end. -/
theorem flatten_blocks (blocks : List Str) :
    (blocks.map fun b => b ++ "\n\n".toList).flatten
      = Join blocks "\n\n".toList ++ (if blocks = [] then [] else "\n\n".toList) := by
  induction blocks with
  | nil => rfl
  | cons b rest ih =>
    by_cases hr : rest = []
    · subst hr
      simp [Join]
    · rw [Join_cons_of_ne_nil b rest _ hr, List.map_cons, List.flatten_cons, ih]
      simp [hr]

theorem Join_blockLines (m : Str) (rest : List Str) (hne : rest ≠ []) :
    Join (moduleBlockLines m ++ [[]] ++ rest) "\n".toList
      = moduleBlockText m ++ Join rest "\n".toList := by
  simp only [moduleBlockLines, List.cons_append, List.nil_append, List.append_assoc]
  rw [Join_cons_of_ne_nil _ _ _ (by simp), Join_cons_of_ne_nil _ _ _ (by simp),
    Join_cons_of_ne_nil _ _ _ (by simp), Join_cons_of_ne_nil _ _ _ hne]
  simp [moduleBlockText]

/-- The text of the blocks is the join of their lines, an empty line after each. -/
theorem flatten_blockText_eq_Join (names : List Str) :
    (names.map moduleBlockText).flatten
      = Join ((names.map fun m => moduleBlockLines m ++ [[]]).flatten ++ [[]]) "\n".toList := by
  induction names with
  | nil => rfl
  | cons m rest ih =>
    have hne : (rest.map fun m => moduleBlockLines m ++ [[]]).flatten ++ [[]] ≠ [] := by simp
    rw [List.map_cons, List.flatten_cons, ih, List.map_cons, List.flatten_cons,
      List.append_assoc, Join_blockLines m _ hne]

theorem newline_not_mem_blockLines (m : Str) (hm : '\n' ∉ m) :
    ∀ l ∈ moduleBlockLines m ++ [[]], '\n' ∉ l := by
  intro l hl
  simp only [moduleBlockLines, List.mem_append, List.mem_cons, List.mem_singleton,
    List.not_mem_nil, or_false] at hl
  rcases hl with (rfl | rfl | rfl) | rfl
  · simp only [List.mem_append, not_or]
    exact ⟨⟨by decide, hm⟩, by decide⟩
  · simp only [List.mem_append, not_or]
    exact ⟨⟨by decide, hm⟩, by decide⟩
  · decide
  · simp

/-- The text built by the `mainContent` loop: the blocks joined by one empty
line, one more empty line after the last; and its lines, when no Module Name
holds a newline. -/
theorem mainContent_structure (lower : Char → Char) (resources : List Str) :
    mainContent lower resources
      = Join (resources.map fun r => Join (moduleBlockLines (rootModuleName lower r)) "\n".toList)
          "\n\n".toList
        ++ (if resources = [] then [] else "\n\n".toList) ∧
    (resources.map fun r => Join (moduleBlockLines (rootModuleName lower r)) "\n".toList).length
      = resources.length ∧
    ((∀ r ∈ resources, '\n' ∉ rootModuleName lower r) →
      Split (mainContent lower resources) '\n'
        = (resources.map fun r => moduleBlockLines (rootModuleName lower r) ++ [[]]).flatten
            ++ [[]]) := by
  refine ⟨?_, by simp, ?_⟩
  · rw [mainContent_eq_flatten]
    have := flatten_blocks
      (resources.map fun r => Join (moduleBlockLines (rootModuleName lower r)) "\n".toList)
    simp only [List.map_map, List.map_eq_nil_iff] at this
    rw [← this]
    congr 1
    apply List.map_congr_left
    intro r _
    exact moduleBlockText_eq _
  · intro hnl
    rw [mainContent_eq_flatten]
    have := flatten_blockText_eq_Join (resources.map (rootModuleName lower))
    simp only [List.map_map] at this
    have hmap : (resources.map fun r => moduleBlockText (rootModuleName lower r))
        = resources.map (moduleBlockText ∘ rootModuleName lower) := rfl
    rw [hmap, this]
    have hsep : "\n".toList = ['\n'] := rfl
    rw [hsep]
    apply Split_Join _ _ (by simp)
    intro l hl
    simp only [List.mem_append, List.mem_flatten, List.mem_map, Function.comp,
      List.mem_singleton] at hl
    rcases hl with ⟨ls, ⟨r, hr, rfl⟩, hl⟩ | rfl
    · exact newline_not_mem_blockLines _ (hnl r hr) l hl
    · simp

/-! ## Lemmas on the file system -/

theorem writeFile_dirs (fs : FS) (p : Path) (c : Str) : (writeFile fs p c).dirs = fs.dirs := by
  unfold writeFile
  split
  · rfl
  · split
    · split <;> rfl
    · rfl

theorem read_writeFile_of_ne (fs : FS) (p q : Path) (c : Str) (h : q ≠ p) :
    (writeFile fs p c).read q = fs.read q := by
  have hb : (q == p) = false := by simpa using h
  unfold writeFile
  split
  · rfl
  · split
    · split
      · simp [FS.read, List.lookup, hb]
      · rfl
    · simp [FS.read, List.lookup, hb]

theorem read_writeFile_self (fs : FS) (p d : Path) (c : Str) (hp : p ∉ fs.dirs)
    (hparent : parentOf p = some d) (hd : d ∈ fs.dirs) : (writeFile fs p c).read p = some c := by
  unfold writeFile
  rw [if_neg hp, hparent]
  simp [hd, FS.read, List.lookup]

theorem read_writeFile_isSome (fs : FS) (p q : Path) (c : Str) (h : (fs.read q).isSome) :
    ((writeFile fs p c).read q).isSome := by
  by_cases hq : q = p
  · subst hq
    unfold writeFile
    split
    · exact h
    · split
      · split
        · simp [FS.read, List.lookup]
        · exact h
      · simp [FS.read, List.lookup]
  · rw [read_writeFile_of_ne fs p q c hq]; exact h

theorem mkdirWalk_files (fs : FS) (qs : List Path) : (mkdirWalk fs qs).1.files = fs.files := by
  induction qs generalizing fs with
  | nil => rfl
  | cons q qs ih =>
    unfold mkdirWalk
    split
    · rfl
    · split
      · exact ih fs
      · exact ih _

theorem mkdirWalk_dirs_mono (fs : FS) (qs : List Path) (d : Path) (hd : d ∈ fs.dirs) :
    d ∈ (mkdirWalk fs qs).1.dirs := by
  induction qs generalizing fs with
  | nil => exact hd
  | cons q qs ih =>
    unfold mkdirWalk
    split
    · exact hd
    · split
      · exact ih fs hd
      · exact ih _ (by simp [hd])

theorem mkdirWalk_mem_of_ok (fs : FS) (qs : List Path) (hok : (mkdirWalk fs qs).2 = true) :
    ∀ q ∈ qs, q ∈ (mkdirWalk fs qs).1.dirs := by
  induction qs generalizing fs with
  | nil => intro q hq; cases hq
  | cons a qs ih =>
    intro q hq
    unfold mkdirWalk at hok ⊢
    split at hok
    · cases hok
    · rename_i hfile
      rw [if_neg hfile]
      split at hok
      · rename_i hmem
        rw [if_pos hmem]
        rcases List.mem_cons.1 hq with rfl | hq
        · exact mkdirWalk_dirs_mono fs qs _ hmem
        · exact ih fs hok q hq
      · rename_i hmem
        rw [if_neg hmem]
        rcases List.mem_cons.1 hq with rfl | hq
        · exact mkdirWalk_dirs_mono _ qs _ (by simp)
        · exact ih _ hok q hq

theorem mkdirAll_files (fs : FS) (p : Path) : (mkdirAll fs p).1.files = fs.files :=
  mkdirWalk_files fs _

theorem mkdirAll_dirs_mono (fs : FS) (p d : Path) (hd : d ∈ fs.dirs) :
    d ∈ (mkdirAll fs p).1.dirs :=
  mkdirWalk_dirs_mono fs _ d hd

theorem mkdirAll_mem_of_ok (fs : FS) (p : Path) (hok : (mkdirAll fs p).2 = true) :
    p ∈ (mkdirAll fs p).1.dirs :=
  mkdirWalk_mem_of_ok fs _ hok p (by simp)

/-! ## The root aggregator: claim C5 -/

theorem generateRootTerraformFiles_read_main (lower : Char → Char) (fs : FS)
    (resources : List Str) (hdir : "infrastructure".toList ∈ fs.dirs)
    (hfree : "infrastructure/main.tf".toList ∉ fs.dirs) :
    (generateRootTerraformFiles lower fs resources).read "infrastructure/main.tf".toList
      = some (mainContent lower resources) := by
  unfold generateRootTerraformFiles
  simp only
  exact read_writeFile_self _ _ "infrastructure".toList _
    (by rw [writeFile_dirs, writeFile_dirs]; exact hfree) (by decide)
    (by rw [writeFile_dirs, writeFile_dirs]; exact hdir)

/-- C5: for every resource list, `generateRootTerraformFiles` writes to
`infrastructure/main.tf`, after the two static files, the text made of one
module block per element, in input order, the block of a resource being the
three lines `module "M" {`, `  source = "./M"`, `}` with `M` its Module Name;
the blocks are joined by exactly one empty line and the last is followed by an
empty line and by no further block. Where the directory `infrastructure`
exists and the path is not a directory, that text is what the file holds
afterwards; and when no Module Name holds a newline, the lines of the file
are, for each resource in turn, its three block lines and one empty line. -/
theorem rootAggregator_blocks (lower : Char → Char) (fs : FS) (resources : List Str) :
    generateRootTerraformFiles lower fs resources
      = writeFile
          (writeFile (writeFile fs "infrastructure/provider.tf".toList providerContent)
            "infrastructure/variables.tf".toList variablesContent)
          "infrastructure/main.tf".toList
          (Join (resources.map fun r =>
              Join ["module \"".toList ++ rootModuleName lower r ++ "\" \x7b".toList,
                    "  source = \"./".toList ++ rootModuleName lower r ++ "\"".toList,
                    "\x7d".toList] "\n".toList) "\n\n".toList
            ++ (if resources = [] then [] else "\n\n".toList)) ∧
    (resources.map fun r =>
        Join ["module \"".toList ++ rootModuleName lower r ++ "\" \x7b".toList,
              "  source = \"./".toList ++ rootModuleName lower r ++ "\"".toList,
              "\x7d".toList] "\n".toList).length
      = resources.length ∧
    ("infrastructure".toList ∈ fs.dirs → "infrastructure/main.tf".toList ∉ fs.dirs →
      (generateRootTerraformFiles lower fs resources).read "infrastructure/main.tf".toList
        = some (Join (resources.map fun r =>
              Join ["module \"".toList ++ rootModuleName lower r ++ "\" \x7b".toList,
                    "  source = \"./".toList ++ rootModuleName lower r ++ "\"".toList,
                    "\x7d".toList] "\n".toList) "\n\n".toList
            ++ (if resources = [] then [] else "\n\n".toList)) ∧
      ((∀ r ∈ resources, '\n' ∉ rootModuleName lower r) →
        ∃ content,
          (generateRootTerraformFiles lower fs resources).read "infrastructure/main.tf".toList
            = some content ∧
          Split content '\n'
            = (resources.map fun r =>
                ["module \"".toList ++ rootModuleName lower r ++ "\" \x7b".toList,
                 "  source = \"./".toList ++ rootModuleName lower r ++ "\"".toList,
                 "\x7d".toList, []]).flatten ++ [[]])) := by
  obtain ⟨hjoin, hlen, hlines⟩ := mainContent_structure lower resources
  have hjoin2 : mainContent lower resources
      = Join (resources.map fun r =>
            Join ["module \"".toList ++ rootModuleName lower r ++ "\" \x7b".toList,
                  "  source = \"./".toList ++ rootModuleName lower r ++ "\"".toList,
                  "\x7d".toList] "\n".toList) "\n\n".toList
          ++ (if resources = [] then [] else "\n\n".toList) := hjoin
  refine ⟨?_, hlen, ?_⟩
  · rw [← hjoin2]
    rfl
  · intro hdir hfree
    have hread := generateRootTerraformFiles_read_main lower fs resources hdir hfree
    refine ⟨by rw [hread, hjoin2], fun hnl => ⟨_, hread, ?_⟩⟩
    exact hlines hnl

theorem rootAggregator_blocks_witness :
    (generateRootTerraformFiles asciiLower ⟨["infrastructure".toList], []⟩
        ["VM".toList, "Storage".toList]).read "infrastructure/main.tf".toList
      = some ("module \"vm_module\" \x7b\n  source = \"./vm_module\"\n\x7d\n\n"
          ++ "module \"storage_module\" \x7b\n  source = \"./storage_module\"\n\x7d\n\n").toList ∧
    ∃ content,
      (generateRootTerraformFiles asciiLower ⟨["infrastructure".toList], []⟩
          ["VM".toList, "Storage".toList]).read "infrastructure/main.tf".toList
        = some content ∧
      Split content '\n'
        = ["module \"vm_module\" \x7b".toList, "  source = \"./vm_module\"".toList,
            "\x7d".toList, [],
           "module \"storage_module\" \x7b".toList, "  source = \"./storage_module\"".toList,
            "\x7d".toList, [], []] :=
  have h := (rootAggregator_blocks asciiLower ⟨["infrastructure".toList], []⟩
    ["VM".toList, "Storage".toList]).2.2 (by decide) (by decide)
  ⟨h.1.trans (by decide),
   (h.2 (by decide)).imp fun _ hc => ⟨hc.1, hc.2.trans (by decide)⟩⟩

/-! ## The static root files: claim C9 -/

/-- C9: whatever the two resource lists (and the lower-casing), the contents
of `infrastructure/provider.tf` and of `infrastructure/variables.tf` after
`generateRootTerraformFiles` are the same from the same starting state; and
where the directory `infrastructure` exists and neither path is a directory,
they are the two fixed texts: the `azurerm` provider with an empty `features`
block, and the string variable `location` described as `Azure region`. -/
theorem rootFiles_static (lower lower2 : Char → Char) (fs : FS) (rs1 rs2 : List Str) :
    (generateRootTerraformFiles lower fs rs1).read "infrastructure/provider.tf".toList
      = (generateRootTerraformFiles lower2 fs rs2).read "infrastructure/provider.tf".toList ∧
    (generateRootTerraformFiles lower fs rs1).read "infrastructure/variables.tf".toList
      = (generateRootTerraformFiles lower2 fs rs2).read "infrastructure/variables.tf".toList ∧
    ("infrastructure".toList ∈ fs.dirs →
      "infrastructure/provider.tf".toList ∉ fs.dirs →
      "infrastructure/variables.tf".toList ∉ fs.dirs →
      (generateRootTerraformFiles lower fs rs1).read "infrastructure/provider.tf".toList
        = some providerContent ∧
      (generateRootTerraformFiles lower fs rs1).read "infrastructure/variables.tf".toList
        = some variablesContent) ∧
    Split providerContent '\n'
      = ["provider \"azurerm\" \x7b".toList, "  features \x7b\x7d".toList, "\x7d".toList] ∧
    Split variablesContent '\n'
      = ["variable \"location\" \x7b".toList, "  description = \"Azure region\"".toList,
         "  type        = string".toList, "\x7d".toList] := by
  have hpm : "infrastructure/provider.tf".toList ≠ "infrastructure/main.tf".toList := by decide
  have hpv : "infrastructure/provider.tf".toList ≠ "infrastructure/variables.tf".toList := by
    decide
  have hvm : "infrastructure/variables.tf".toList ≠ "infrastructure/main.tf".toList := by decide
  have hP : ∀ (l : Char → Char) (rs : List Str),
      (generateRootTerraformFiles l fs rs).read "infrastructure/provider.tf".toList
        = (writeFile fs "infrastructure/provider.tf".toList providerContent).read
            "infrastructure/provider.tf".toList := by
    intro l rs
    unfold generateRootTerraformFiles
    simp only
    rw [read_writeFile_of_ne _ _ _ _ hpm, read_writeFile_of_ne _ _ _ _ hpv]
  have hV : ∀ (l : Char → Char) (rs : List Str),
      (generateRootTerraformFiles l fs rs).read "infrastructure/variables.tf".toList
        = (writeFile (writeFile fs "infrastructure/provider.tf".toList providerContent)
            "infrastructure/variables.tf".toList variablesContent).read
            "infrastructure/variables.tf".toList := by
    intro l rs
    unfold generateRootTerraformFiles
    simp only
    rw [read_writeFile_of_ne _ _ _ _ hvm]
  refine ⟨by rw [hP, hP], by rw [hV, hV], ?_, by decide, by decide⟩
  intro hdir hp hv
  constructor
  · rw [hP]
    exact read_writeFile_self fs _ "infrastructure".toList _ hp (by decide) hdir
  · rw [hV]
    exact read_writeFile_self _ _ "infrastructure".toList _
      (by rw [writeFile_dirs]; exact hv) (by decide) (by rw [writeFile_dirs]; exact hdir)

theorem rootFiles_static_witness :
    (generateRootTerraformFiles asciiLower ⟨["infrastructure".toList], []⟩
        ["VM".toList]).read "infrastructure/provider.tf".toList = some providerContent ∧
    (generateRootTerraformFiles asciiLower ⟨["infrastructure".toList], []⟩
        ["VM".toList]).read "infrastructure/variables.tf".toList = some variablesContent :=
  (rootFiles_static asciiLower asciiLower ⟨["infrastructure".toList], []⟩ ["VM".toList]
    []).2.2.1 (by decide) (by decide) (by decide)

/-! ## A failing completion call: claim C6 -/

theorem modulesLoop_append (lower : Char → Char) (endpoint : Endpoint) (key : Str)
    (xs ys : List Str) (k : Nat) (fs : FS) :
    modulesLoop lower endpoint key k fs (xs ++ ys)
      = match modulesLoop lower endpoint key k fs xs with
        | .error e => .error e
        | .ok fs1 => modulesLoop lower endpoint key (k + xs.length) fs1 ys := by
  induction xs generalizing k fs with
  | nil => simp [modulesLoop]
  | cons x xs ih =>
    simp only [List.cons_append, modulesLoop, List.length_cons]
    cases hstep : generateResourceModule lower endpoint key k fs x with
    | error e => rfl
    | ok fs1 =>
      have := ih (k + 1) fs1
      have hk : k + 1 + xs.length = k + (xs.length + 1) := by omega
      rw [hk] at this
      exact this

/-- What `generateResourceModule` does when the reply has a non-success status:
`os.MkdirAll` has run, nothing else has. -/
theorem generateResourceModule_bad_status (lower : Char → Char) (endpoint : Endpoint)
    (key : Str) (k : Nat) (fs : FS) (resource : Str) (status : Nat) (raw : Str) (body : Body)
    (hreply : endpoint k key (promptOf resource) = .response status raw body)
    (hstatus : status ≠ 200) :
    generateResourceModule lower endpoint key k fs resource
      = .error ⟨if (mkdirAll fs (modulePathOf (resourceModuleName lower resource))).2
                then .apiError raw else .mkdirModule resource,
               (mkdirAll fs (modulePathOf (resourceModuleName lower resource))).1⟩ := by
  have hcode : getTerraformCode endpoint key k resource = .error (.apiError raw) := by
    unfold getTerraformCode
    rw [hreply]
    simp [hstatus]
  unfold generateResourceModule
  simp only
  rcases hmk : mkdirAll fs (modulePathOf (resourceModuleName lower resource)) with ⟨fs1, ok⟩
  cases ok with
  | false => simp
  | true => simp [hcode]

/-- C6 as stated fails: on the input line `VM`, with a completion reply of
status 500, the run ends in the fatal API error and the module directory
`infrastructure/vm_module`, which did not exist before, exists: `os.MkdirAll`
runs before the completion call. -/
theorem failed_completion_counterexample :
    ∃ e : Exit,
      main asciiLower (fun _ _ _ => .response 500 "overloaded".toList .undecodable)
          (.parsed "sk-test".toList) ⟨[], []⟩ "VM\n".toList = .error e ∧
      e.fatal = .apiError "overloaded".toList ∧
      modulePathOf (resourceModuleName asciiLower "VM".toList) = "infrastructure/vm_module".toList ∧
      "infrastructure/vm_module".toList ∉ (⟨[], []⟩ : FS).dirs ∧
      "infrastructure/vm_module".toList ∈ e.fs.dirs :=
  ⟨_, rfl, by decide, by decide, by decide, by decide⟩

/-- C6, amended: when the completion reply for resource `N` has a non-success
status, the loop over the resources ends in a fatal error; and when the
resources before `N` were processed without error, the state it leaves is the
state after them with `os.MkdirAll` of the module directory of resource `N`
applied: the files are exactly those present after resource `N - 1` (none is
written for `N`, none is changed), no directory is lost, and, `os.MkdirAll`
succeeding, the module directory of resource `N` exists and the error is the
API error carrying the response body. -/
theorem failed_completion (lower : Char → Char) (endpoint : Endpoint) (key : Str) (fs : FS)
    (resources : List Str) (N : Nat) (hN : N < resources.length)
    (status : Nat) (raw : Str) (body : Body)
    (hreply : endpoint N key (promptOf resources[N]) = .response status raw body)
    (hstatus : status ≠ 200) :
    ∃ e : Exit,
      modulesLoop lower endpoint key 0 fs resources = .error e ∧
      ∀ fsN, modulesLoop lower endpoint key 0 fs (resources.take N) = .ok fsN →
        e.fs = (mkdirAll fsN (modulePathOf (resourceModuleName lower resources[N]))).1 ∧
        e.fs.files = fsN.files ∧
        (∀ d ∈ fsN.dirs, d ∈ e.fs.dirs) ∧
        ((mkdirAll fsN (modulePathOf (resourceModuleName lower resources[N]))).2 = true →
          e.fatal = .apiError raw ∧
          modulePathOf (resourceModuleName lower resources[N]) ∈ e.fs.dirs) ∧
        ((mkdirAll fsN (modulePathOf (resourceModuleName lower resources[N]))).2 = false →
          e.fatal = .mkdirModule resources[N]) := by
  have hsplit : resources = resources.take N ++ resources[N] :: resources.drop (N + 1) := by
    rw [← List.drop_eq_getElem_cons hN, List.take_append_drop]
  have hlen : (resources.take N).length = N := by
    rw [List.length_take]; omega
  have hloop := modulesLoop_append lower endpoint key (resources.take N)
    (resources[N] :: resources.drop (N + 1)) 0 fs
  rw [← hsplit, hlen, Nat.zero_add] at hloop
  cases hpre : modulesLoop lower endpoint key 0 fs (resources.take N) with
  | error e =>
    rw [hpre] at hloop
    exact ⟨e, hloop, fun fsN h => by cases h⟩
  | ok fs1 =>
    rw [hpre] at hloop
    simp only [modulesLoop] at hloop
    rw [generateResourceModule_bad_status lower endpoint key N fs1 resources[N] status raw body
      hreply hstatus] at hloop
    refine ⟨_, hloop, ?_⟩
    intro fsN h
    cases h
    refine ⟨rfl, mkdirAll_files _ _, fun d hd => mkdirAll_dirs_mono _ _ d hd, ?_, ?_⟩
    · intro hok
      exact ⟨by simp [hok], mkdirAll_mem_of_ok _ _ hok⟩
    · intro hok
      simp [hok]

theorem failed_completion_witness :
    ∃ e : Exit,
      modulesLoop asciiLower
          (fun k _ _ => if k = 0 then .response 200 [] (.content "resource".toList)
            else .response 503 "busy".toList .undecodable)
          "sk-test".toList 0 ⟨["infrastructure".toList], []⟩ ["VM".toList, "Storage".toList]
        = .error e ∧
      e.fatal = .apiError "busy".toList ∧
      e.fs.files = [("infrastructure/vm_module/output.tf".toList, []),
        ("infrastructure/vm_module/variables.tf".toList, []),
        ("infrastructure/vm_module/main.tf".toList, [])] ∧
      "infrastructure/storage_module".toList ∈ e.fs.dirs := by
  obtain ⟨e, hrun, hstate⟩ := failed_completion asciiLower
    (fun k _ _ => if k = 0 then .response 200 [] (.content "resource".toList)
      else .response 503 "busy".toList .undecodable)
    "sk-test".toList ⟨["infrastructure".toList], []⟩ ["VM".toList, "Storage".toList] 1
    (by decide) 503 "busy".toList .undecodable rfl (by decide)
  obtain ⟨_, hfiles, _, hok, _⟩ := hstate _ rfl
  exact ⟨e, hrun, (hok (by decide)).1, hfiles.trans (by decide), (hok (by decide)).2⟩

/-! ## Module references and module directories: claim C10 -/

theorem ancestorsFrom_of_not_mem (seen name : Str) (h : '/' ∉ name) :
    ancestorsFrom seen name = [] := by
  induction name generalizing seen with
  | nil => rfl
  | cons c cs ih =>
    have hc : c ≠ '/' := fun e => h (by simp [e])
    have hcs : '/' ∉ cs := fun e => h (by simp [e])
    simp [ancestorsFrom, hc, ih _ hcs]

theorem ancestorsFrom_child (seen p name : Str) (hne : seen ++ p ≠ []) (h : '/' ∉ name) :
    (ancestorsFrom seen (p ++ '/' :: name)).getLast? = some (seen ++ p) := by
  induction p generalizing seen with
  | nil =>
    have hs : seen ≠ [] := by simpa using hne
    simp [ancestorsFrom, hs, ancestorsFrom_of_not_mem _ name h]
  | cons c cs ih =>
    have hnext : (seen ++ [c]) ++ cs ≠ [] := by simp
    have := ih (seen ++ [c]) hnext
    simp only [List.append_assoc, List.singleton_append] at this
    simp only [List.cons_append, ancestorsFrom]
    split
    · split
      · exact this
      · rw [List.getLast?_cons]
        have h2 : (ancestorsFrom (seen ++ [c]) (cs.append ('/' :: name))).getLast?
            = some (seen ++ c :: cs) := this
        rw [h2]
        rfl
    · exact this

/-- The directory holding a file spelled `dir/name` is `dir`. -/
theorem parentOf_child (dir name : Str) (hne : dir ≠ []) (h : '/' ∉ name) :
    parentOf (dir ++ '/' :: name) = some dir := by
  unfold parentOf
  simpa using ancestorsFrom_child [] dir name (by simpa using hne) h

theorem read_mkdirAll (fs : FS) (p q : Path) : (mkdirAll fs p).1.read q = fs.read q := by
  unfold FS.read
  rw [mkdirAll_files]

/-- A write into a directory that exists succeeds or finds a directory in the way. -/
theorem read_writeFile_child (fs : FS) (dir name content : Str) (hne : dir ≠ [])
    (hname : '/' ∉ name) (hdir : dir ∈ fs.dirs) (hfree : dir ++ '/' :: name ∉ fs.dirs) :
    ((writeFile fs (dir ++ '/' :: name) content).read (dir ++ '/' :: name)).isSome := by
  rw [read_writeFile_self fs _ dir content hfree (parentOf_child dir name hne hname) hdir]
  rfl

/-- What a call of `generateResourceModule` that returns leaves behind. -/
theorem generateResourceModule_ok (lower : Char → Char) (endpoint : Endpoint) (key : Str)
    (k : Nat) (fs fs1 : FS) (resource : Str)
    (h : generateResourceModule lower endpoint key k fs resource = .ok fs1) :
    (∀ d ∈ fs.dirs, d ∈ fs1.dirs) ∧
    (∀ q, (fs.read q).isSome → (fs1.read q).isSome) ∧
    modulePathOf (resourceModuleName lower resource) ∈ fs1.dirs ∧
    ∀ name ∈ moduleFileNames,
      modulePathOf (resourceModuleName lower resource) ++ '/' :: name ∉ fs1.dirs →
      ((fs1.read (modulePathOf (resourceModuleName lower resource) ++ '/' :: name)).isSome) := by
  unfold generateResourceModule at h
  simp only at h
  have hne : modulePathOf (resourceModuleName lower resource) ≠ [] := by
    simp [modulePathOf]
  rcases hmk : mkdirAll fs (modulePathOf (resourceModuleName lower resource)) with ⟨fsd, ok⟩
  rw [hmk] at h
  cases ok with
  | false => simp at h
  | true =>
    have hpath : modulePathOf (resourceModuleName lower resource) ∈ fsd.dirs := by
      have := mkdirAll_mem_of_ok fs (modulePathOf (resourceModuleName lower resource))
        (by rw [hmk])
      rwa [hmk] at this
    have hmono : ∀ d ∈ fs.dirs, d ∈ fsd.dirs := fun d hd => by
      have := mkdirAll_dirs_mono fs (modulePathOf (resourceModuleName lower resource)) d hd
      rwa [hmk] at this
    have hread : ∀ q, fsd.read q = fs.read q := fun q => by
      have := read_mkdirAll fs (modulePathOf (resourceModuleName lower resource)) q
      rwa [hmk] at this
    cases hcode : getTerraformCode endpoint key k resource with
    | error f => rw [hcode] at h; simp at h
    | ok code =>
      rw [hcode] at h
      simp only [Except.ok.injEq] at h
      subst h
      have hdirs : ∀ d, d ∈ (writeFile (writeFile (writeFile fsd
          (modulePathOf (resourceModuleName lower resource) ++ "/main.tf".toList) code)
          (modulePathOf (resourceModuleName lower resource) ++ "/variables.tf".toList) [])
          (modulePathOf (resourceModuleName lower resource) ++ "/output.tf".toList) []).dirs
          ↔ d ∈ fsd.dirs := by
        intro d
        rw [writeFile_dirs, writeFile_dirs, writeFile_dirs]
      refine ⟨fun d hd => (hdirs d).2 (hmono d hd), ?_, (hdirs _).2 hpath, ?_⟩
      · intro q hq
        apply read_writeFile_isSome
        apply read_writeFile_isSome
        apply read_writeFile_isSome
        rw [hread]; exact hq
      · intro name hname hfree
        have hfree0 := fun h0 => hfree ((hdirs _).2 h0)
        simp only [moduleFileNames, List.mem_cons, List.mem_singleton, List.not_mem_nil,
          or_false] at hname
        rcases hname with rfl | rfl | rfl
        · apply read_writeFile_isSome
          apply read_writeFile_isSome
          exact read_writeFile_child fsd _ _ code hne (by decide) hpath hfree0
        · apply read_writeFile_isSome
          exact read_writeFile_child _ _ _ [] hne (by decide)
            (by rw [writeFile_dirs]; exact hpath) (by rw [writeFile_dirs]; exact hfree0)
        · exact read_writeFile_child _ _ _ [] hne (by decide)
            (by rw [writeFile_dirs, writeFile_dirs]; exact hpath)
            (by rw [writeFile_dirs, writeFile_dirs]; exact hfree0)

/-- What a loop over the resources that runs to its end leaves behind. -/
theorem modulesLoop_ok (lower : Char → Char) (endpoint : Endpoint) (key : Str)
    (resources : List Str) (k : Nat) (fs fs1 : FS)
    (h : modulesLoop lower endpoint key k fs resources = .ok fs1) :
    (∀ d ∈ fs.dirs, d ∈ fs1.dirs) ∧
    (∀ q, (fs.read q).isSome → (fs1.read q).isSome) ∧
    ∀ r ∈ resources,
      modulePathOf (resourceModuleName lower r) ∈ fs1.dirs ∧
      ∀ name ∈ moduleFileNames,
        modulePathOf (resourceModuleName lower r) ++ '/' :: name ∉ fs1.dirs →
        ((fs1.read (modulePathOf (resourceModuleName lower r) ++ '/' :: name)).isSome) := by
  induction resources generalizing k fs with
  | nil =>
    simp only [modulesLoop, Except.ok.injEq] at h
    subst h
    exact ⟨fun _ hd => hd, fun _ hq => hq, fun r hr => by cases hr⟩
  | cons x xs ih =>
    simp only [modulesLoop] at h
    cases hstep : generateResourceModule lower endpoint key k fs x with
    | error e => rw [hstep] at h; cases h
    | ok fs2 =>
      rw [hstep] at h
      obtain ⟨hd1, hr1, hp1, hf1⟩ := generateResourceModule_ok lower endpoint key k fs fs2 x hstep
      obtain ⟨hd2, hr2, hall⟩ := ih (k + 1) fs2 h
      refine ⟨fun d hd => hd2 d (hd1 d hd), fun q hq => hr2 q (hr1 q hq), ?_⟩
      intro r hr
      rcases List.mem_cons.1 hr with rfl | hr
      · refine ⟨hd2 _ hp1, fun name hname hfree => ?_⟩
        exact hr2 _ (hf1 name hname (fun hin => hfree (hd2 _ hin)))
      · exact hall r hr

theorem mkdirWalk_dirs_subset (fs : FS) (qs : List Path) (d : Path)
    (hd : d ∈ (mkdirWalk fs qs).1.dirs) : d ∈ fs.dirs ∨ d ∈ qs := by
  induction qs generalizing fs with
  | nil => exact Or.inl hd
  | cons q qs ih =>
    unfold mkdirWalk at hd
    split at hd
    · exact Or.inl hd
    · split at hd
      · rcases ih fs hd with h | h
        · exact Or.inl h
        · exact Or.inr (List.mem_cons_of_mem _ h)
      · rcases ih _ hd with h | h
        · simp only [List.mem_append, List.mem_singleton] at h
          rcases h with h | h
          · exact Or.inl h
          · exact Or.inr (by simp [h])
        · exact Or.inr (List.mem_cons_of_mem _ h)

/-- No file of a module directory is the root aggregator file. -/
theorem moduleFile_ne_rootMain (lower : Char → Char) (resource name : Str) :
    "infrastructure/main.tf".toList
      ≠ modulePathOf (resourceModuleName lower resource) ++ '/' :: name := by
  intro h
  have hlen := congrArg List.length h
  have h1 : "infrastructure/main.tf".toList.length = 22 := by decide
  have h2 : "infrastructure/".toList.length = 15 := by decide
  have h3 : "_module".toList.length = 7 := by decide
  simp only [modulePathOf, resourceModuleName, ToLower, ReplaceAll, List.length_append,
    List.length_map, List.length_cons, h1, h2, h3] at hlen
  omega

/-- One call of `generateResourceModule` leaves the root aggregator file as it was. -/
theorem generateResourceModule_read_rootMain (lower : Char → Char) (endpoint : Endpoint)
    (key : Str) (k : Nat) (fs fs1 : FS) (resource : Str)
    (h : generateResourceModule lower endpoint key k fs resource = .ok fs1) :
    fs1.read "infrastructure/main.tf".toList = fs.read "infrastructure/main.tf".toList := by
  unfold generateResourceModule at h
  simp only at h
  rcases hmk : mkdirAll fs (modulePathOf (resourceModuleName lower resource)) with ⟨fsd, ok⟩
  have hread : fsd.read "infrastructure/main.tf".toList
      = fs.read "infrastructure/main.tf".toList := by
    have := read_mkdirAll fs (modulePathOf (resourceModuleName lower resource))
      "infrastructure/main.tf".toList
    rwa [hmk] at this
  rw [hmk] at h
  cases ok with
  | false => simp at h
  | true =>
    cases hcode : getTerraformCode endpoint key k resource with
    | error f => rw [hcode] at h; simp at h
    | ok code =>
      rw [hcode] at h
      simp only [Except.ok.injEq] at h
      subst h
      have h1 := moduleFile_ne_rootMain lower resource "output.tf".toList
      have h2 := moduleFile_ne_rootMain lower resource "variables.tf".toList
      have h3 := moduleFile_ne_rootMain lower resource "main.tf".toList
      exact (read_writeFile_of_ne _ _ _ _ h1).trans
        ((read_writeFile_of_ne _ _ _ _ h2).trans ((read_writeFile_of_ne _ _ _ _ h3).trans hread))

theorem modulesLoop_read_rootMain (lower : Char → Char) (endpoint : Endpoint) (key : Str)
    (resources : List Str) (k : Nat) (fs fs1 : FS)
    (h : modulesLoop lower endpoint key k fs resources = .ok fs1) :
    fs1.read "infrastructure/main.tf".toList = fs.read "infrastructure/main.tf".toList := by
  induction resources generalizing k fs with
  | nil =>
    simp only [modulesLoop, Except.ok.injEq] at h
    subst h
    rfl
  | cons x xs ih =>
    simp only [modulesLoop] at h
    cases hstep : generateResourceModule lower endpoint key k fs x with
    | error e => rw [hstep] at h; cases h
    | ok fs2 =>
      rw [hstep] at h
      rw [ih (k + 1) fs2 h,
        generateResourceModule_read_rootMain lower endpoint key k fs fs2 x hstep]

/-- The block of every resource of the list stands in the text of `mainContent`. -/
theorem mainContent_has_block (lower : Char → Char) (resources : List Str) (r : Str)
    (hr : r ∈ resources) :
    ∃ before after, mainContent lower resources
      = before ++ moduleBlockText (rootModuleName lower r) ++ after := by
  obtain ⟨s, t, rfl⟩ := List.append_of_mem hr
  rw [mainContent_eq_flatten]
  refine ⟨(s.map fun r => moduleBlockText (rootModuleName lower r)).flatten,
    (t.map fun r => moduleBlockText (rootModuleName lower r)).flatten, ?_⟩
  simp

/-- A run of `main` that ends without a fatal error went through the loop. -/
theorem main_ok (lower : Char → Char) (endpoint : Endpoint) (cfg : ConfigFile) (fs fs1 : FS)
    (stdin : Str) (h : main lower endpoint cfg fs stdin = .ok fs1) :
    ∃ key, (mkdirAll fs "infrastructure".toList).2 = true ∧
      modulesLoop lower endpoint key 0
        (generateRootTerraformFiles lower (mkdirAll fs "infrastructure".toList).1
          (resourcesOf (ReadString stdin '\n')))
        (resourcesOf (ReadString stdin '\n')) = .ok fs1 := by
  unfold main at h
  cases hkey : loadAPIKeyFromConfig cfg with
  | error f => rw [hkey] at h; cases h
  | ok key =>
    rw [hkey] at h
    simp only at h
    rcases hmk : mkdirAll fs "infrastructure".toList with ⟨fsd, ok⟩
    rw [hmk] at h
    cases ok with
    | false => cases h
    | true => exact ⟨key, rfl, h⟩

/-- C10 as stated fails: on the input line `VM,Storage`, with a completion reply
of status 500, the run ends at the first resource; `infrastructure/main.tf`
already holds the line `source = "./storage_module"` for the resource
`Storage`, and the directory `infrastructure/storage_module` is never created. -/
theorem module_reference_dangling_counterexample :
    ∃ (e : Exit) (content : Str),
      main asciiLower (fun _ _ _ => .response 500 "overloaded".toList .undecodable)
          (.parsed "sk-test".toList) ⟨[], []⟩ "VM,Storage\n".toList = .error e ∧
      "Storage".toList ∈ resourcesOf (ReadString "VM,Storage\n".toList '\n') ∧
      e.fs.read "infrastructure/main.tf".toList = some content ∧
      "  source = \"./".toList ++ rootModuleName asciiLower "Storage".toList ++ "\"".toList
        ∈ Split content '\n' ∧
      modulePathOf (resourceModuleName asciiLower "Storage".toList)
        = "infrastructure/storage_module".toList ∧
      modulePathOf (resourceModuleName asciiLower "Storage".toList) ∉ e.fs.dirs :=
  ⟨_, _, rfl, by decide, rfl, by decide, by decide, by decide⟩

/-- C10, amended: for every resource `r`, the Module Name of the Root Writer and
that of the Module Writer are the same; a call of `generateResourceModule` for
`r` that returns has made the directory `infrastructure/M`, `M` being the name
the Root Writer gives `r`; and when the run of `main` ends without a fatal
error (the path `infrastructure/main.tf` not being a directory at the start),
then for every resource `r` of the input `infrastructure/main.tf` holds the
block of `r` with its line `source = "./M"`, and the directory
`infrastructure/M` exists. -/
theorem module_reference_resolves (lower : Char → Char) (endpoint : Endpoint)
    (cfg : ConfigFile) (fs fs1 : FS) (stdin : Str)
    (hfree : "infrastructure/main.tf".toList ∉ fs.dirs)
    (hrun : main lower endpoint cfg fs stdin = .ok fs1) :
    (∀ r : Str, rootModuleName lower r = resourceModuleName lower r) ∧
    (∀ (key : Str) (k : Nat) (fs2 fs3 : FS) (r : Str),
      generateResourceModule lower endpoint key k fs2 r = .ok fs3 →
      "infrastructure/".toList ++ rootModuleName lower r ∈ fs3.dirs) ∧
    ∀ r ∈ resourcesOf (ReadString stdin '\n'),
      (∃ before after, fs1.read "infrastructure/main.tf".toList
        = some (before
            ++ ("module \"".toList ++ resourceModuleName lower r
                ++ "\" \x7b\n  source = \"./".toList ++ resourceModuleName lower r
                ++ "\"\n\x7d\n\n".toList)
            ++ after)) ∧
      "infrastructure/".toList ++ resourceModuleName lower r ∈ fs1.dirs := by
  have hname : ∀ r : Str, rootModuleName lower r = resourceModuleName lower r := fun _ => rfl
  refine ⟨hname, ?_, ?_⟩
  · intro key k fs2 fs3 r hstep
    rw [hname r]
    exact (generateResourceModule_ok lower endpoint key k fs2 fs3 r hstep).2.2.1
  · intro r hr
    obtain ⟨key, hmk, hloop⟩ := main_ok lower endpoint cfg fs fs1 stdin hrun
    have hdir : "infrastructure".toList ∈ (mkdirAll fs "infrastructure".toList).1.dirs :=
      mkdirAll_mem_of_ok fs _ hmk
    have hfree1 : "infrastructure/main.tf".toList
        ∉ (mkdirAll fs "infrastructure".toList).1.dirs := by
      intro hin
      rcases mkdirWalk_dirs_subset fs _ _ hin with h | h
      · exact hfree h
      · revert h; decide
    have hread := generateRootTerraformFiles_read_main lower _
      (resourcesOf (ReadString stdin '\n')) hdir hfree1
    have hkeep := modulesLoop_read_rootMain lower endpoint key _ 0 _ fs1 hloop
    obtain ⟨before, after, hblock⟩ :=
      mainContent_has_block lower (resourcesOf (ReadString stdin '\n')) r hr
    refine ⟨⟨before, after, ?_⟩, ?_⟩
    · rw [hkeep, hread, hblock]
      rfl
    · exact ((modulesLoop_ok lower endpoint key _ 0 _ fs1 hloop).2.2 r hr).1

theorem module_reference_resolves_witness :
    ∃ fs1 : FS,
      main asciiLower (fun _ _ _ => .response 200 [] (.content "resource".toList))
          (.parsed "sk-test".toList) ⟨[], []⟩ "VM, Key Vault\n".toList = .ok fs1 ∧
      (∃ before after, fs1.read "infrastructure/main.tf".toList
        = some (before
            ++ ("module \"".toList ++ resourceModuleName asciiLower "Key Vault".toList
                ++ "\" \x7b\n  source = \"./".toList
                ++ resourceModuleName asciiLower "Key Vault".toList
                ++ "\"\n\x7d\n\n".toList)
            ++ after)) ∧
      "infrastructure/".toList ++ resourceModuleName asciiLower "Key Vault".toList
        ∈ fs1.dirs ∧
      "infrastructure/".toList ++ resourceModuleName asciiLower "Key Vault".toList
        = "infrastructure/key_vault_module".toList :=
  have h := (module_reference_resolves asciiLower
    (fun _ _ _ => .response 200 [] (.content "resource".toList)) (.parsed "sk-test".toList)
    ⟨[], []⟩ _ "VM, Key Vault\n".toList (by decide) rfl).2.2 "Key Vault".toList (by decide)
  ⟨_, rfl, h.1, h.2, by decide⟩

end TerraformModule
